import Mathlib

/-!
Shallow embedding of the gitlab-board dashboard frontend
(`src/static/app.js`, with its earlier variant `src/unnamed/part_000`).

The embedding models:
* the issue record and commit-stat record data types;
* the mutable client state (`state` object of `app.js`): issue cache,
  assignee summary, quick-filter assignee, and the DOM-held selection
  (checked checkboxes plus the select-all control);
* the operations `renderIssues`, `renderDashboard`, `toggleAssigneeFilter`,
  `fetchIssues`, `refreshIssues`, `closeSelectedIssues`, `syncRepos`,
  `loadCommitStats`, and the grouping stage of `renderCommitChart`;
* the incremental merge performed by the backend refresh endpoint
  (not part of the frontend sources), modelled from the spec.

Boundary (network) calls are modelled by passing the call's outcome as an
explicit argument (`none` / `false` standing for a non-ok response) and by
recording, in a list of effects, which boundary requests were issued and
which toast messages were shown to the user.  JavaScript objects used as
string-keyed maps are modelled as association lists in insertion order;
JavaScript string truthiness (`null`/empty string are falsy) and the `in`
operator's visibility of properties inherited from `Object.prototype` are
modelled explicitly.
-/

/-- An issue record as served by the backend and held in `state.issues`
(`src/static/app.js`).  `author` and `assignee` are nullable in the JSON
payload, hence `Option String`. -/
structure Issue where
  id : Nat
  project_id : Nat
  iid : Nat
  title : String
  author : Option String
  assignee : Option String
  labels : List String
  state : String
  category : String
  note : String
  web_url : String
deriving DecidableEq

/-- One row of the `/api/commit-stats` payload (`data.stats`), as consumed by
`renderCommitChart` (`src/static/app.js:219`). -/
structure CommitStatRecord where
  author : String
  week : String
  commits : Nat
deriving DecidableEq

/-- The successful payload of `/api/issues` and `/api/issues/refresh`
(`data.issues`, `data.assignee_summary`).  The summary object is modelled as
an association list from assignee display name to open-issue count. -/
structure FetchData where
  issues : List Issue
  assignee_summary : List (String × Nat)
deriving DecidableEq

/-- The client state of `src/static/app.js:1` that the reconciliation logic
touches: the issue cache, the assignee summary, the quick-filter assignee
(`selectedAssignee`, `null` modelled as `none`), the set of checked issue ids
in the rendered table, and the select-all checkbox. -/
structure AppState where
  issues : List Issue
  assigneeSummary : List (String × Nat)
  selectedAssignee : Option String
  selection : List Nat
  selectAll : Bool
deriving DecidableEq

/-- Observable effects of an operation: a toast message shown to the user
(`toast(...)` in `app.js`) or a boundary request issued to the given
endpoint. -/
inductive Effect where
  | toast (msg : String)
  | request (endpoint : String)
deriving DecidableEq

/-- JavaScript truthiness of a nullable string: `null` and the empty string
are falsy. -/
def truthyStr : Option String → Bool
  | none => false
  | some s => s ≠ ""

/-- The expression `issue.assignee || 'Unassigned'` of
`src/static/app.js:96`: the assignee string, with `"Unassigned"` substituted
when the field is null (absent) or — by JavaScript truthiness — the empty
string. -/
def assigneeKey : Option String → String
  | none => "Unassigned"
  | some s => if s = "" then "Unassigned" else s

/-- The quick-filter stage of `renderIssues` (`src/static/app.js:95`):
`state.selectedAssignee ? state.issues.filter(...) : state.issues`. -/
def filteredIssues (issues : List Issue) : Option String → List Issue
  | none => issues
  | some s =>
      if s = "" then issues
      else issues.filter (fun issue => assigneeKey issue.assignee == s)

/-- The state change performed by `renderIssues` (`src/static/app.js:92`):
the table body is rebuilt from scratch (all row checkboxes are fresh and
unchecked) and the select-all control is unchecked. -/
def renderIssues (s : AppState) : AppState :=
  { s with selection := [], selectAll := false }

/-- The property names a plain JavaScript object (such as the JSON-parsed
assignee summary) inherits from `Object.prototype`; the `in` operator sees
them in addition to the object's own keys. -/
def objectPrototypeKeys : List String :=
  ["constructor", "hasOwnProperty", "isPrototypeOf", "propertyIsEnumerable",
   "toLocaleString", "toString", "valueOf",
   "__defineGetter__", "__defineSetter__", "__lookupGetter__", "__lookupSetter__",
   "__proto__"]

/-- The JavaScript expression `key in obj` for a plain JSON-parsed object
with the given own keys: `in` consults the whole prototype chain, so it is
true for the own keys and for every property inherited from
`Object.prototype`. -/
def jsKeyIn (key : String) (ownKeys : List String) : Bool :=
  ownKeys.contains key || objectPrototypeKeys.contains key

/-- The state change performed by `renderDashboard`
(`src/static/app.js:320`): the quick-filter assignee is cleared when it is
set (truthy) but `state.selectedAssignee in state.assigneeSummary` is false —
that is, the name is neither a key of the current summary nor a property
inherited from `Object.prototype`. -/
def renderDashboard (s : AppState) : AppState :=
  if truthyStr s.selectedAssignee
      && !(jsKeyIn (s.selectedAssignee.getD "") (s.assigneeSummary.map Prod.fst)) then
    { s with selectedAssignee := none }
  else s

/-- The operation `toggleAssigneeFilter` (`src/static/app.js:20`): toggles the quick
filter (`state.selectedAssignee === name || !name ? null : name`), then runs
`renderDashboard()` and `renderIssues()`. -/
def toggleAssigneeFilter (s : AppState) (name : Option String) : AppState :=
  let sel := if s.selectedAssignee == name || !truthyStr name then none else name
  renderIssues (renderDashboard { s with selectedAssignee := sel })

/-- The operation `fetchIssues` (`src/static/app.js:122`), with the outcome of the
`/api/issues` boundary call passed explicitly (`none` = non-ok response).
An empty project-id list is reported and the call is not attempted; on a
non-ok response the state is left untouched; on success the cache and
summary are installed and `renderIssues()`, `renderDashboard()` run. -/
def fetchIssues (s : AppState) (projectIds : List Nat) (response : Option FetchData) :
    AppState × List Effect :=
  if projectIds.isEmpty then (s, [.toast "프로젝트 ID를 입력하세요"])
  else
    match response with
    | none => (s, [.request "/api/issues", .toast "이슈 조회 실패"])
    | some data =>
        let s1 := { s with issues := data.issues, assigneeSummary := data.assignee_summary }
        (renderDashboard (renderIssues s1), [.request "/api/issues"])

/-- The operation `refreshIssues` (`src/static/app.js:141`), with the outcome of the
`/api/issues/refresh` boundary call passed explicitly.  Structurally
identical to `fetchIssues` apart from endpoint and error message: the
response's issue list and summary are installed wholesale. -/
def refreshIssues (s : AppState) (projectIds : List Nat) (response : Option FetchData) :
    AppState × List Effect :=
  if projectIds.isEmpty then (s, [.toast "프로젝트 ID를 입력하세요"])
  else
    match response with
    | none => (s, [.request "/api/issues/refresh", .toast "새 이슈를 불러오지 못했습니다"])
    | some data =>
        let s1 := { s with issues := data.issues, assigneeSummary := data.assignee_summary }
        (renderDashboard (renderIssues s1), [.request "/api/issues/refresh"])

/-- The operation `closeSelectedIssues` (`src/static/app.js:178`).  The checked ids are
read from the rendered table (`s.selection`); an empty selection is reported
and no request is made.  Otherwise a single `/api/issues/bulk-close` request
is issued; on failure only the failure toast happens; on success the success
toast is shown and `fetchIssues(true)` is triggered, whose own outcome is
the `refetchResponse` argument. -/
def closeSelectedIssues (s : AppState) (projectIds : List Nat) (closeOk : Bool)
    (refetchResponse : Option FetchData) : AppState × List Effect :=
  if s.selection.isEmpty then (s, [.toast "선택된 이슈가 없습니다"])
  else if closeOk then
    let refetch := fetchIssues s projectIds refetchResponse
    (refetch.1, [.request "/api/issues/bulk-close", .toast "선택한 이슈를 닫았습니다"] ++ refetch.2)
  else (s, [.request "/api/issues/bulk-close", .toast "이슈 close 실패"])

/-- The operation `syncRepos` (`src/static/app.js:56`): an empty project-id list is
reported and the `/api/repos` call is not attempted; otherwise the request is
issued and a failure is reported. -/
def syncRepos (projectIds : List Nat) (ok : Bool) : List Effect :=
  if projectIds.isEmpty then [.toast "프로젝트 ID를 입력하세요"]
  else if ok then [.request "/api/repos"]
  else [.request "/api/repos", .toast "레포지토리 동기화 실패"]

/-- The inner-object update `grouped[row.author][row.week] = row` of
`renderCommitChart` (`src/static/app.js:223`): set the week key in a
string-keyed object, replacing the value in place when the key exists and
appending the key at the end otherwise. -/
def setWeek (m : List (String × CommitStatRecord)) (w : String) (r : CommitStatRecord) :
    List (String × CommitStatRecord) :=
  match m with
  | [] => [(w, r)]
  | (k, v) :: rest => if k = w then (k, r) :: rest else (k, v) :: setWeek rest w r

/-- One iteration of the `stats.forEach` loop of `renderCommitChart`
(`src/static/app.js:221`): `if (!grouped[row.author]) grouped[row.author] = {};
grouped[row.author][row.week] = row;`. -/
def addRow (g : List (String × List (String × CommitStatRecord))) (row : CommitStatRecord) :
    List (String × List (String × CommitStatRecord)) :=
  match g with
  | [] => [(row.author, [(row.week, row)])]
  | (a, m) :: rest =>
      if a = row.author then (a, setWeek m row.week row) :: rest
      else (a, m) :: addRow rest row

/-- The `grouped` object built by `renderCommitChart`
(`src/static/app.js:220`): authors in first-appearance order, each mapped to
its week → row object. -/
def groupStats (stats : List CommitStatRecord) :
    List (String × List (String × CommitStatRecord)) :=
  stats.foldl addRow []

/-- One dataset line of `renderCommitChart` (`src/static/app.js:229`):
`weeks.map((w) => values[w]?.commits || 0)` — the commit count of the
author's row for each week, `0` when the week is absent (and, by `||`, when
the stored count is itself `0`, which coincides). -/
def weekSeries (values : List (String × CommitStatRecord)) (weeks : List String) : List Nat :=
  weeks.map (fun w => match values.lookup w with | some r => r.commits | none => 0)

/-- The comparison performed by JavaScript's default `Array.prototype.sort`
on two strings, as lists of characters: lexicographic by code unit. -/
def jsLeChars : List Char → List Char → Bool
  | [], _ => true
  | _ :: _, [] => false
  | c :: cs, d :: ds =>
      if c < d then true
      else if d < c then false
      else jsLeChars cs ds

/-- JavaScript's default string ordering (`'a' <= 'b'` as used by `.sort()`
in `src/static/app.js:225`). -/
def jsLe (a b : String) : Bool := jsLeChars a.data b.data

instance : DecidableRel (fun a b : String => jsLe a b = true) :=
  fun a b => inferInstanceAs (Decidable (jsLe a b = true))

/-- The data stage of `renderCommitChart` (`src/static/app.js:219`): the
sorted list of distinct week keys
(`Array.from(new Set(stats.map((s) => s.week))).sort()`) paired with, per
author in first-appearance order, that author's aligned commit series. -/
def renderCommitChartData (stats : List CommitStatRecord) :
    List String × List (String × List Nat) :=
  let weeks :=
    List.insertionSort (fun a b => jsLe a b = true) ((stats.map CommitStatRecord.week).dedup)
  (weeks, (groupStats stats).map (fun g => (g.1, weekSeries g.2 weeks)))

/-- The operation `loadCommitStats` (`src/static/app.js:204`): an empty
project-id list returns silently (no toast, no request); otherwise the
`/api/commit-stats` request is issued, a non-ok response is reported, and a
successful response is handed to `renderCommitChart`, whose data stage
(`renderCommitChartData`) is the second component of the result. -/
def loadCommitStats (projectIds : List Nat) (response : Option (List CommitStatRecord)) :
    List Effect × Option (List String × List (String × List Nat)) :=
  if projectIds.isEmpty then ([], none)
  else
    match response with
    | none => ([.request "/api/commit-stats", .toast "커밋 통계를 가져오지 못했습니다"], none)
    | some stats => ([.request "/api/commit-stats"], some (renderCommitChartData stats))

/-- The quick-filter predicate exactly as claim C3's words state it, for
comparison with the source's `filteredIssues`: `"Unassigned"` is substituted
only when the assignee field is absent, and a set quick filter keeps exactly
the issues whose key is equal to the filter value. -/
def filteredIssuesClaim (issues : List Issue) : Option String → List Issue
  | none => issues
  | some s =>
      issues.filter (fun issue =>
        (match issue.assignee with
          | none => "Unassigned"
          | some a => a) == s)

/-- Association-list composition used to reason about `groupStats`: the row
stored at `grouped[a][w]`. -/
def lookupWeek (g : List (String × List (String × CommitStatRecord))) (a w : String) :
    Option CommitStatRecord :=
  match g.lookup a with
  | some m => m.lookup w
  | none => none

/-- The last record of `stats` (in input order) with the given author and
week, if any — the row that survives the keyed overwrites of
`renderCommitChart`'s grouping loop. -/
def findLast (stats : List CommitStatRecord) (a w : String) : Option CommitStatRecord :=
  match stats with
  | [] => none
  | r :: rs =>
      match findLast rs a w with
      | some x => some x
      | none => if a = r.author ∧ w = r.week then some r else none

/-- A concrete issue record used by witnesses and counterexamples. -/
def sampleIssue (id : Nat) (title : String) (assignee : Option String)
    (category note : String) : Issue :=
  { id := id, project_id := 10, iid := id, title := title, author := some "writer",
    assignee := assignee, labels := [], state := "opened", category := category,
    note := note, web_url := "http://example" }

/-- A concrete client state used by witnesses and counterexamples. -/
def sampleState (selectedAssignee : Option String) (selection : List Nat) : AppState :=
  { issues := [sampleIssue 7 "old" (some "Kim") "bug" "x"],
    assigneeSummary := [("Kim", 1)],
    selectedAssignee := selectedAssignee,
    selection := selection,
    selectAll := false }

/-- Modelled from the spec: the incremental merge of one incoming record,
performed by the backend `/api/issues/refresh` handler, which is not among
the frontend sources (the frontend `refreshIssues` only installs the list
the backend returns).  Spec §4.1: "for each incoming record, if an issue
with the same `id` already exists in the cache, its `category` and `note`
fields from the existing cache entry are preserved while every other field
is overwritten from the incoming record; if no existing entry matches, the
incoming record is appended". -/
def mergeOne (cache : List Issue) (r : Issue) : List Issue :=
  if cache.any (fun c => c.id == r.id) then
    cache.map (fun c =>
      if c.id == r.id then { r with category := c.category, note := c.note } else c)
  else cache ++ [r]

/-- Modelled from the spec: `mergeIncremental(records)` of spec §4.1 — the
refresh operation's merge of the incoming records into the cache, record by
record, with pre-existing records keeping their position and new records
appended at the end. -/
def mergeIncremental (cache records : List Issue) : List Issue :=
  records.foldl mergeOne cache

/-- The record that claim C1 prescribes for a cache entry matched by an
incoming record: every field from the incoming record except the locally
owned `category` and `note`, which come from the cache entry. -/
def mergedRecord (c r : Issue) : Issue :=
  { r with category := c.category, note := c.note }

/-- The per-entry result that claim C1 prescribes for the merged cache: a
cache entry hit by an incoming record of the same id becomes that record
with the cache entry's annotations; an unmatched entry is unchanged. -/
def mergeSpecFun (records : List Issue) (c : Issue) : Issue :=
  match records.find? (fun r => r.id == c.id) with
  | some r => mergedRecord c r
  | none => c

lemma isEmpty_eq_false_of_ne {α : Type} {l : List α} (h : l ≠ []) : l.isEmpty = false := by
  cases l with
  | nil => exact absurd rfl h
  | cons a t => rfl

lemma renderDashboard_issues (s : AppState) : (renderDashboard s).issues = s.issues := by
  unfold renderDashboard; split <;> rfl

lemma renderDashboard_assigneeSummary (s : AppState) :
    (renderDashboard s).assigneeSummary = s.assigneeSummary := by
  unfold renderDashboard; split <;> rfl

lemma renderDashboard_selection (s : AppState) :
    (renderDashboard s).selection = s.selection := by
  unfold renderDashboard; split <;> rfl

lemma renderDashboard_selectAll (s : AppState) :
    (renderDashboard s).selectAll = s.selectAll := by
  unfold renderDashboard; split <;> rfl

/-- C3 counterexample: for the issue whose assignee field is present but
equal to the empty string, the quick filter `"Unassigned"` of the source
(`issue.assignee || 'Unassigned'`, JavaScript truthiness) keeps the issue,
whereas the claim's reading — `"Unassigned"` only for an absent assignee,
otherwise exact equality — drops it. -/
theorem filteredIssues_truthiness_cex :
    filteredIssues [sampleIssue 1 "t" (some "") "" ""] (some "Unassigned") ≠
      filteredIssuesClaim [sampleIssue 1 "t" (some "") "" ""] (some "Unassigned") := by
  decide

/-- C3 (amended): for every cache and every set (non-empty) quick-filter
value, the quick-filter stage of `renderIssues` yields exactly the cache
issues, in cache order, whose assignee — with `"Unassigned"` substituted
when the assignee field is absent or empty — equals the value exactly; when
the quick filter is unset (null or empty), the full cache is passed through
unchanged. -/
theorem filteredIssues_quickFilter_spec (issues : List Issue) (sel : Option String) :
    (filteredIssues issues sel).Sublist issues ∧
    (∀ s, sel = some s → s ≠ "" →
      ∀ i, i ∈ filteredIssues issues sel ↔ i ∈ issues ∧ assigneeKey i.assignee = s) ∧
    ((sel = none ∨ sel = some "") → filteredIssues issues sel = issues) := by
  refine ⟨?_, ?_, ?_⟩
  · cases sel with
    | none => exact List.Sublist.refl _
    | some s =>
        by_cases hs : s = ""
        · simp [filteredIssues, hs]
        · rw [filteredIssues, if_neg hs]
          exact List.filter_sublist issues
  · rintro s rfl hs i
    simp [filteredIssues, hs, List.mem_filter]
  · rintro (rfl | rfl) <;> simp [filteredIssues]

/-- C3 witness: the amended statement at a concrete cache and the concrete
quick-filter value `"Kim"`. -/
theorem filteredIssues_quickFilter_spec_witness :
    (filteredIssues [sampleIssue 7 "old" (some "Kim") "bug" "x"] (some "Kim")).Sublist
        [sampleIssue 7 "old" (some "Kim") "bug" "x"] ∧
    (∀ s, (some "Kim" : Option String) = some s → s ≠ "" →
      ∀ i, i ∈ filteredIssues [sampleIssue 7 "old" (some "Kim") "bug" "x"] (some "Kim") ↔
        i ∈ [sampleIssue 7 "old" (some "Kim") "bug" "x"] ∧ assigneeKey i.assignee = s) ∧
    (((some "Kim" : Option String) = none ∨ (some "Kim" : Option String) = some "") →
      filteredIssues [sampleIssue 7 "old" (some "Kim") "bug" "x"] (some "Kim") =
        [sampleIssue 7 "old" (some "Kim") "bug" "x"]) :=
  filteredIssues_quickFilter_spec [sampleIssue 7 "old" (some "Kim") "bug" "x"] (some "Kim")

/-- C4: the consistency check of `renderDashboard` (`src/static/app.js:321`)
uses the JavaScript `in` operator, which also sees the properties a plain
object inherits from `Object.prototype`.  For a selected assignee named
`"toString"` — a legal username, selected by clicking its summary badge —
that is absent from the freshly computed summary, `'toString' in summary` is
nevertheless true, so the quick filter is not cleared: after
`renderDashboard` the quick-filter assignee is neither null nor a key
present in the summary, against the claimed invariant (and against spec
§4.3's consistency rule, which is clearly the intent). -/
theorem renderDashboard_prototypeKey_not_cleared :
    (renderDashboard (sampleState (some "toString") [])).selectedAssignee
      = some "toString" ∧
    (renderDashboard (sampleState (some "toString") [])).selectedAssignee ≠ none ∧
    "toString" ∉
      (renderDashboard (sampleState (some "toString") [])).assigneeSummary.map Prod.fst := by
  refine ⟨by decide, by decide, by decide⟩

/-- C5: calling `closeSelectedIssues` with an empty selection signals the
error to the user, issues no boundary request, and leaves the whole state
unchanged. -/
theorem closeSelectedIssues_emptySelection (s : AppState) (projectIds : List Nat)
    (closeOk : Bool) (refetchResponse : Option FetchData) (h : s.selection = []) :
    closeSelectedIssues s projectIds closeOk refetchResponse =
      (s, [Effect.toast "선택된 이슈가 없습니다"]) ∧
    ∀ e, Effect.request e ∉ (closeSelectedIssues s projectIds closeOk refetchResponse).2 := by
  have he : s.selection.isEmpty = true := by simp [h]
  refine ⟨?_, ?_⟩ <;> simp [closeSelectedIssues, he]

/-- C5 witness: the empty-selection behaviour at a concrete state. -/
theorem closeSelectedIssues_emptySelection_witness :
    (sampleState none []).selection = [] ∧
    (closeSelectedIssues (sampleState none []) [10] true none =
      (sampleState none [], [Effect.toast "선택된 이슈가 없습니다"]) ∧
    ∀ e, Effect.request e ∉ (closeSelectedIssues (sampleState none []) [10] true none).2) :=
  ⟨rfl, closeSelectedIssues_emptySelection (sampleState none []) [10] true none rfl⟩

/-- C6: with a non-empty selection, a failed bulk close leaves the state
(selection and cache included) exactly as it was, issues exactly one
bulk-close request, and reports the failure; a successful bulk close
triggers the issue re-fetch, and when that re-fetch succeeds the selection
is cleared and the cache is the freshly fetched list. -/
theorem closeSelectedIssues_postconditions (s : AppState) (projectIds : List Nat)
    (h : s.selection ≠ []) :
    (∀ refetchResponse, closeSelectedIssues s projectIds false refetchResponse =
      (s, [Effect.request "/api/issues/bulk-close", Effect.toast "이슈 close 실패"])) ∧
    (∀ refetchResponse, projectIds ≠ [] →
      Effect.request "/api/issues" ∈
        (closeSelectedIssues s projectIds true refetchResponse).2) ∧
    (∀ d, projectIds ≠ [] →
      (closeSelectedIssues s projectIds true (some d)).1.selection = [] ∧
      (closeSelectedIssues s projectIds true (some d)).1.issues = d.issues) := by
  have he : s.selection.isEmpty = false := isEmpty_eq_false_of_ne h
  refine ⟨fun r => by simp [closeSelectedIssues, he], ?_, ?_⟩
  · intro r hp
    have hpe : projectIds.isEmpty = false := isEmpty_eq_false_of_ne hp
    cases r with
    | none => simp [closeSelectedIssues, he, fetchIssues, hpe]
    | some d => simp [closeSelectedIssues, he, fetchIssues, hpe]
  · intro d hp
    have hpe : projectIds.isEmpty = false := isEmpty_eq_false_of_ne hp
    constructor
    · simp [closeSelectedIssues, he, fetchIssues, hpe, renderDashboard_selection,
        renderIssues]
    · simp [closeSelectedIssues, he, fetchIssues, hpe, renderDashboard_issues,
        renderIssues]

/-- C6 witness: the bulk-close postconditions at a concrete state with one
selected issue. -/
theorem closeSelectedIssues_postconditions_witness :
    (sampleState none [7]).selection ≠ [] ∧
    ((∀ refetchResponse, closeSelectedIssues (sampleState none [7]) [10] false refetchResponse =
      (sampleState none [7],
        [Effect.request "/api/issues/bulk-close", Effect.toast "이슈 close 실패"])) ∧
    (∀ refetchResponse, ([10] : List Nat) ≠ [] →
      Effect.request "/api/issues" ∈
        (closeSelectedIssues (sampleState none [7]) [10] true refetchResponse).2) ∧
    (∀ d, ([10] : List Nat) ≠ [] →
      (closeSelectedIssues (sampleState none [7]) [10] true (some d)).1.selection = [] ∧
      (closeSelectedIssues (sampleState none [7]) [10] true (some d)).1.issues = d.issues)) :=
  ⟨by decide, closeSelectedIssues_postconditions (sampleState none [7]) [10] (by decide)⟩

/-- C7: a non-ok response to the issue fetch or the issue refresh leaves the
entire client state — cache, selection, quick filter, and assignee summary —
exactly as it was. -/
theorem boundary_failure_preserves_state (s : AppState) (projectIds : List Nat) :
    (fetchIssues s projectIds none).1 = s ∧ (refreshIssues s projectIds none).1 = s := by
  refine ⟨?_, ?_⟩
  · unfold fetchIssues; split <;> rfl
  · unfold refreshIssues; split <;> rfl

/-- C8 counterexample: `loadCommitStats` with an empty project-id list
returns silently — no toast is shown, contradicting the claim that every
operation taking a project-id list reports the empty-list input error to the
user. -/
theorem loadCommitStats_emptyIds_silent :
    loadCommitStats [] none = ([], none) ∧
    Effect.toast "프로젝트 ID를 입력하세요" ∉ (loadCommitStats [] none).1 := by
  refine ⟨rfl, ?_⟩
  simp [loadCommitStats]

/-- C8 (amended): with an empty project-id list, none of the four operations
attempts its boundary call; repo sync, issue fetch and issue refresh report
the input error immediately and leave the state unchanged, while the
commit-statistics fetch skips the call silently, without reporting. -/
theorem emptyProjectIds_input_error (s : AppState) (ok : Bool) (response : Option FetchData)
    (stats : Option (List CommitStatRecord)) :
    syncRepos [] ok = [Effect.toast "프로젝트 ID를 입력하세요"] ∧
    fetchIssues s [] response = (s, [Effect.toast "프로젝트 ID를 입력하세요"]) ∧
    refreshIssues s [] response = (s, [Effect.toast "프로젝트 ID를 입력하세요"]) ∧
    loadCommitStats [] stats = ([], none) ∧
    (∀ e, Effect.request e ∉ syncRepos [] ok) ∧
    (∀ e, Effect.request e ∉ (fetchIssues s [] response).2) ∧
    (∀ e, Effect.request e ∉ (refreshIssues s [] response).2) ∧
    (∀ e, Effect.request e ∉ (loadCommitStats [] stats).1) := by
  refine ⟨rfl, rfl, rfl, rfl, ?_, ?_, ?_, ?_⟩ <;> intro e <;>
    simp [syncRepos, fetchIssues, refreshIssues, loadCommitStats]

/-- C9: every rebuild of the rendered issue list — toggling the assignee
quick filter, a successful fetch (also the path of a reapplied filter), or a
successful refresh — leaves the selection empty and the select-all control
unchecked. -/
theorem rebuild_clears_selection (s : AppState) (name : Option String)
    (projectIds : List Nat) (d : FetchData) (h : projectIds ≠ []) :
    (toggleAssigneeFilter s name).selection = [] ∧
    (toggleAssigneeFilter s name).selectAll = false ∧
    (fetchIssues s projectIds (some d)).1.selection = [] ∧
    (fetchIssues s projectIds (some d)).1.selectAll = false ∧
    (refreshIssues s projectIds (some d)).1.selection = [] ∧
    (refreshIssues s projectIds (some d)).1.selectAll = false := by
  have hpe : projectIds.isEmpty = false := isEmpty_eq_false_of_ne h
  refine ⟨rfl, rfl, ?_, ?_, ?_, ?_⟩ <;>
    simp [fetchIssues, refreshIssues, hpe, renderDashboard_selection,
      renderDashboard_selectAll, renderIssues]

/-- C9 witness: the clearing at a concrete state, quick-filter toggle value,
project-id list and fetch payload. -/
theorem rebuild_clears_selection_witness :
    ([10] : List Nat) ≠ [] ∧
    ((toggleAssigneeFilter (sampleState (some "Kim") [7]) none).selection = [] ∧
    (toggleAssigneeFilter (sampleState (some "Kim") [7]) none).selectAll = false ∧
    (fetchIssues (sampleState (some "Kim") [7]) [10]
      (some { issues := [], assignee_summary := [] })).1.selection = [] ∧
    (fetchIssues (sampleState (some "Kim") [7]) [10]
      (some { issues := [], assignee_summary := [] })).1.selectAll = false ∧
    (refreshIssues (sampleState (some "Kim") [7]) [10]
      (some { issues := [], assignee_summary := [] })).1.selection = [] ∧
    (refreshIssues (sampleState (some "Kim") [7]) [10]
      (some { issues := [], assignee_summary := [] })).1.selectAll = false) :=
  ⟨by decide, rebuild_clears_selection (sampleState (some "Kim") [7]) none [10]
    { issues := [], assignee_summary := [] } (by decide)⟩

lemma mergedRecord_id (c r : Issue) : (mergedRecord c r).id = r.id := rfl

lemma any_id_map (cache : List Issue) (f : Issue → Issue)
    (hid : ∀ c, (f c).id = c.id) (k : Nat) :
    (cache.map f).any (fun c => c.id == k) = cache.any (fun c => c.id == k) := by
  induction cache with
  | nil => rfl
  | cons c t ih => simp [List.any_cons, hid c, ih]

lemma mergeSpecFun_cons_eq {r c : Issue} (rs : List Issue) (h : r.id = c.id) :
    mergeSpecFun (r :: rs) c = mergedRecord c r := by
  unfold mergeSpecFun
  rw [List.find?_cons_of_pos _ (by simpa using h)]

lemma mergeSpecFun_cons_ne {r c : Issue} (rs : List Issue) (h : ¬ r.id = c.id) :
    mergeSpecFun (r :: rs) c = mergeSpecFun rs c := by
  unfold mergeSpecFun
  rw [List.find?_cons_of_neg _ (by simpa using h)]

lemma mergeSpecFun_of_not_mem {rs : List Issue} {c : Issue}
    (h : c.id ∉ rs.map Issue.id) : mergeSpecFun rs c = c := by
  unfold mergeSpecFun
  rw [List.find?_eq_none.mpr]
  intro x hx
  simp only [beq_iff_eq]
  intro he
  exact h (he ▸ List.mem_map_of_mem Issue.id hx)

/-- C1: the incremental merge keeps, for each incoming record whose id is
already in the cache, the `category` and `note` of the existing cache entry
while overwriting every other field from the incoming record, in the
position of the existing entry; incoming records whose id is not in the
cache are appended at the end, in order; pre-existing records keep their
positions.  (Stated as a closed form of the whole merged cache; the incoming
records carry pairwise distinct ids, as a refresh response does.) -/
theorem mergeIncremental_spec (cache records : List Issue)
    (hr : (records.map Issue.id).Nodup) :
    mergeIncremental cache records =
      cache.map (mergeSpecFun records) ++
      records.filter (fun r => !cache.any (fun c => c.id == r.id)) := by
  revert hr
  induction records generalizing cache with
  | nil =>
      intro _
      have h1 : cache.map (mergeSpecFun []) = cache := by
        have h2 : ∀ c ∈ cache, mergeSpecFun [] c = c := fun c _ => rfl
        rw [List.map_congr_left h2]
        simp
      simp [mergeIncremental, h1]
  | cons r rs ih =>
      intro hr
      have hcons : (r.id :: rs.map Issue.id).Nodup := by simpa using hr
      have hrid : r.id ∉ rs.map Issue.id := (List.nodup_cons.mp hcons).1
      have hr' : (rs.map Issue.id).Nodup := (List.nodup_cons.mp hcons).2
      have hstep : mergeIncremental cache (r :: rs) = mergeIncremental (mergeOne cache r) rs :=
        rfl
      rw [hstep, ih (mergeOne cache r) hr']
      by_cases hmem : cache.any (fun c => c.id == r.id) = true
      · have hone : mergeOne cache r =
            cache.map (fun c =>
              if c.id == r.id then { r with category := c.category, note := c.note } else c) := by
          unfold mergeOne
          rw [if_pos hmem]
        rw [hone]
        have hid : ∀ c : Issue,
            ((if c.id == r.id then { r with category := c.category, note := c.note } else c)
              : Issue).id = c.id := by
          intro c
          by_cases hc : c.id = r.id
          · simp [hc]
          · simp [hc]
        congr 1
        · rw [List.map_map]
          apply List.map_congr_left
          intro c _
          show mergeSpecFun rs
            (if c.id == r.id then { r with category := c.category, note := c.note } else c)
            = mergeSpecFun (r :: rs) c
          by_cases hc : c.id = r.id
          · rw [if_pos (by simpa using hc), mergeSpecFun_cons_eq rs hc.symm]
            exact mergeSpecFun_of_not_mem (by simpa [mergedRecord] using hrid)
          · rw [if_neg (by simpa using hc), mergeSpecFun_cons_ne rs (fun he => hc he.symm)]
        · rw [List.filter_cons_of_neg (by simp [hmem])]
          apply List.filter_congr
          intro x _
          show (!(cache.map (fun c =>
              if c.id == r.id then { r with category := c.category, note := c.note } else c)).any
                (fun c => c.id == x.id))
            = (!cache.any (fun c => c.id == x.id))
          rw [any_id_map cache _ hid x.id]
      · have hmem' : cache.any (fun c => c.id == r.id) = false := by
          simpa using hmem
        have hone : mergeOne cache r = cache ++ [r] := by
          unfold mergeOne
          rw [if_neg (by simp [hmem'])]
        rw [hone, List.map_append]
        have hmr : mergeSpecFun rs r = r := mergeSpecFun_of_not_mem hrid
        have hmaps : cache.map (mergeSpecFun rs) = cache.map (mergeSpecFun (r :: rs)) := by
          apply List.map_congr_left
          intro c hc
          have hne : (c.id == r.id) = false := by
            have := List.any_eq_false.mp hmem' c hc
            simpa using this
          rw [mergeSpecFun_cons_ne rs (fun he => by simp [he.symm] at hne)]
        have hfilter : rs.filter (fun x => !(cache ++ [r]).any (fun c => c.id == x.id))
            = rs.filter (fun x => !cache.any (fun c => c.id == x.id)) := by
          apply List.filter_congr
          intro x hx
          have hxr : (r.id == x.id) = false := by
            simp only [beq_eq_false_iff_ne, ne_eq]
            intro he
            exact hrid (he ▸ List.mem_map_of_mem Issue.id hx)
          simp [List.any_append, hxr]
        rw [hmaps, hfilter, List.filter_cons_of_pos (by simp [hmem'])]
        simp [hmr, List.append_assoc]

/-- C1 witness: the annotation-preservation instance of spec §8 — a cached
issue with `category="bug"`, `note="x"` merged with an incoming record of
the same id and empty annotations keeps `"bug"` and `"x"` while taking the
incoming title. -/
theorem mergeIncremental_spec_witness :
    (([sampleIssue 7 "new" (some "Kim") "" ""].map Issue.id).Nodup) ∧
    mergeIncremental [sampleIssue 7 "old" (some "Kim") "bug" "x"]
        [sampleIssue 7 "new" (some "Kim") "" ""]
      = [sampleIssue 7 "new" (some "Kim") "bug" "x"] := by
  refine ⟨by decide, ?_⟩
  rw [mergeIncremental_spec _ _ (by decide)]
  rfl

lemma jsLeChars_total : ∀ a b : List Char, jsLeChars a b = true ∨ jsLeChars b a = true := by
  intro a
  induction a with
  | nil => intro b; left; rfl
  | cons c cs ih =>
      intro b
      cases b with
      | nil => right; rfl
      | cons d ds =>
          rcases lt_trichotomy c d with h | h | h
          · left; simp [jsLeChars, h]
          · subst h
            rcases ih ds with h2 | h2
            · left; simp [jsLeChars, lt_irrefl, h2]
            · right; simp [jsLeChars, lt_irrefl, h2]
          · right; simp [jsLeChars, h]

lemma jsLeChars_trans : ∀ a b c : List Char,
    jsLeChars a b = true → jsLeChars b c = true → jsLeChars a c = true := by
  intro a
  induction a with
  | nil => intro b c _ _; rfl
  | cons x xs ih =>
      intro b c hab hbc
      cases b with
      | nil => simp [jsLeChars] at hab
      | cons y ys =>
          cases c with
          | nil => simp [jsLeChars] at hbc
          | cons z zs =>
              rcases lt_trichotomy x y with h1 | h1 | h1
              · rcases lt_trichotomy y z with h2 | h2 | h2
                · have h3 : x < z := lt_trans h1 h2
                  simp [jsLeChars, h3]
                · subst h2; simp [jsLeChars, h1]
                · simp [jsLeChars, lt_asymm h2, h2] at hbc
              · subst h1
                rcases lt_trichotomy x z with h2 | h2 | h2
                · simp [jsLeChars, h2]
                · subst h2
                  have hab2 : jsLeChars xs ys = true := by
                    simpa [jsLeChars, lt_irrefl] using hab
                  have hbc2 : jsLeChars ys zs = true := by
                    simpa [jsLeChars, lt_irrefl] using hbc
                  simp [jsLeChars, lt_irrefl, ih ys zs hab2 hbc2]
                · simp [jsLeChars, lt_asymm h2, h2] at hbc
              · simp [jsLeChars, lt_asymm h1, h1] at hab

instance : IsTotal String (fun a b => jsLe a b = true) :=
  ⟨fun a b => jsLeChars_total a.data b.data⟩

instance : IsTrans String (fun a b => jsLe a b = true) :=
  ⟨fun a b c => jsLeChars_trans a.data b.data c.data⟩

lemma lookup_cons_of_eq {β : Type} {k a : String} (b : β) (es : List (String × β))
    (h : a = k) : ((k, b) :: es).lookup a = some b := by
  subst h
  exact List.lookup_cons_self

lemma lookup_cons_of_ne {β : Type} {k a : String} (b : β) (es : List (String × β))
    (h : ¬ a = k) : ((k, b) :: es).lookup a = es.lookup a := by
  rw [List.lookup_cons, beq_false_of_ne h]

lemma lookup_setWeek (m : List (String × CommitStatRecord)) (w : String)
    (r : CommitStatRecord) (w' : String) :
    (setWeek m w r).lookup w' = if w' = w then some r else m.lookup w' := by
  induction m with
  | nil =>
      show ([(w, r)] : List (String × CommitStatRecord)).lookup w' = _
      by_cases h : w' = w
      · rw [if_pos h, lookup_cons_of_eq _ _ h]
      · rw [if_neg h, lookup_cons_of_ne _ _ h]
  | cons kv rest ih =>
      obtain ⟨k, v⟩ := kv
      by_cases hk : k = w
      · have h1 : setWeek ((k, v) :: rest) w r = (k, r) :: rest := by
          simp [setWeek, hk]
        rw [h1]
        by_cases h : w' = k
        · rw [lookup_cons_of_eq _ _ h, if_pos (h.trans hk)]
        · rw [lookup_cons_of_ne _ _ h, if_neg (fun he => h (he.trans hk.symm)),
            lookup_cons_of_ne _ _ h]
      · have h1 : setWeek ((k, v) :: rest) w r = (k, v) :: setWeek rest w r := by
          simp [setWeek, hk]
        rw [h1]
        by_cases h : w' = k
        · rw [lookup_cons_of_eq _ _ h, if_neg (fun he => hk (h.symm.trans he)),
            lookup_cons_of_eq _ _ h]
        · rw [lookup_cons_of_ne _ _ h, ih]
          by_cases h2 : w' = w
          · rw [if_pos h2, if_pos h2]
          · rw [if_neg h2, if_neg h2, lookup_cons_of_ne _ _ h]

lemma lookupWeek_cons_self (k : String) (m : List (String × CommitStatRecord))
    (rest : List (String × List (String × CommitStatRecord))) (w : String) :
    lookupWeek ((k, m) :: rest) k w = m.lookup w := by
  unfold lookupWeek
  rw [List.lookup_cons_self]

lemma lookupWeek_cons_ne {a k : String} (h : ¬ a = k)
    (m : List (String × CommitStatRecord))
    (rest : List (String × List (String × CommitStatRecord))) (w : String) :
    lookupWeek ((k, m) :: rest) a w = lookupWeek rest a w := by
  unfold lookupWeek
  rw [lookup_cons_of_ne _ _ h]

lemma lookupWeek_addRow (g : List (String × List (String × CommitStatRecord)))
    (row : CommitStatRecord) (a w : String) :
    lookupWeek (addRow g row) a w =
      if a = row.author ∧ w = row.week then some row else lookupWeek g a w := by
  induction g with
  | nil =>
      have h1 : addRow [] row = [(row.author, [(row.week, row)])] := rfl
      rw [h1]
      by_cases ha : a = row.author
      · have h2 : lookupWeek [(row.author, [(row.week, row)])] a w =
            ([(row.week, row)] : List (String × CommitStatRecord)).lookup w := by
          unfold lookupWeek
          rw [lookup_cons_of_eq _ _ ha]
        rw [h2]
        by_cases hw : w = row.week
        · rw [lookup_cons_of_eq _ _ hw, if_pos ⟨ha, hw⟩]
        · rw [lookup_cons_of_ne _ _ hw, if_neg (fun hc => hw hc.2)]
          rfl
      · rw [lookupWeek_cons_ne ha, if_neg (fun hc => ha hc.1)]
  | cons p rest ih =>
      obtain ⟨k, m⟩ := p
      by_cases hk : k = row.author
      · have h1 : addRow ((k, m) :: rest) row = (k, setWeek m row.week row) :: rest := by
          simp [addRow, hk]
        rw [h1]
        by_cases ha : a = k
        · rw [ha, lookupWeek_cons_self, lookup_setWeek, lookupWeek_cons_self]
          by_cases hw : w = row.week
          · rw [if_pos hw, if_pos ⟨hk, hw⟩]
          · rw [if_neg hw, if_neg (fun hc => hw hc.2)]
        · rw [lookupWeek_cons_ne ha, lookupWeek_cons_ne ha,
            if_neg (fun hc => ha (hc.1.trans hk.symm))]
      · have h1 : addRow ((k, m) :: rest) row = (k, m) :: addRow rest row := by
          simp [addRow, hk]
        rw [h1]
        by_cases ha : a = k
        · rw [ha, lookupWeek_cons_self, lookupWeek_cons_self,
            if_neg (fun hc => hk hc.1)]
        · rw [lookupWeek_cons_ne ha, ih, lookupWeek_cons_ne ha]

lemma lookupWeek_foldl (l : List CommitStatRecord) :
    ∀ (g : List (String × List (String × CommitStatRecord))) (a w : String),
      lookupWeek (l.foldl addRow g) a w =
        match findLast l a w with
        | some x => some x
        | none => lookupWeek g a w := by
  induction l with
  | nil => intro g a w; rfl
  | cons r rs ih =>
      intro g a w
      have h1 : (r :: rs).foldl addRow g = rs.foldl addRow (addRow g r) := rfl
      rw [h1, ih (addRow g r) a w]
      cases hf : findLast rs a w with
      | some x => simp [findLast, hf]
      | none =>
          rw [lookupWeek_addRow]
          by_cases hc : a = r.author ∧ w = r.week
          · obtain ⟨ha, hw⟩ := hc
            subst ha
            subst hw
            simp [findLast, hf]
          · simp [findLast, hf, hc]

lemma lookupWeek_groupStats (stats : List CommitStatRecord) (a w : String) :
    lookupWeek (groupStats stats) a w = findLast stats a w := by
  have h := lookupWeek_foldl stats [] a w
  unfold groupStats
  rw [h]
  cases hf : findLast stats a w <;> rfl

lemma map_fst_addRow (g : List (String × List (String × CommitStatRecord)))
    (row : CommitStatRecord) :
    (addRow g row).map Prod.fst =
      if row.author ∈ g.map Prod.fst then g.map Prod.fst
      else g.map Prod.fst ++ [row.author] := by
  induction g with
  | nil => simp [addRow]
  | cons p rest ih =>
      obtain ⟨k, m⟩ := p
      by_cases hk : k = row.author
      · subst hk
        simp [addRow]
  
      · by_cases hmem : row.author ∈ rest.map Prod.fst <;>
          simp [addRow, hk, ih, hmem, Ne.symm hk]

lemma mem_map_fst_addRow (g : List (String × List (String × CommitStatRecord)))
    (row : CommitStatRecord) (a : String) :
    a ∈ (addRow g row).map Prod.fst ↔ a ∈ g.map Prod.fst ∨ a = row.author := by
  rw [map_fst_addRow]
  by_cases hmem : row.author ∈ g.map Prod.fst
  · rw [if_pos hmem]
    exact ⟨Or.inl, fun h => h.elim id fun he => he ▸ hmem⟩
  · rw [if_neg hmem]
    simp [List.mem_append]

lemma nodup_map_fst_addRow {g : List (String × List (String × CommitStatRecord))}
    (row : CommitStatRecord) (h : (g.map Prod.fst).Nodup) :
    ((addRow g row).map Prod.fst).Nodup := by
  rw [map_fst_addRow]
  by_cases hmem : row.author ∈ g.map Prod.fst
  · rwa [if_pos hmem]
  · rw [if_neg hmem]
    simp [List.nodup_append, h, hmem]

lemma nodup_map_fst_groupStats (stats : List CommitStatRecord) :
    ((groupStats stats).map Prod.fst).Nodup := by
  unfold groupStats
  have h : ∀ (l : List CommitStatRecord) (g : List (String × List (String × CommitStatRecord))),
      (g.map Prod.fst).Nodup → ((l.foldl addRow g).map Prod.fst).Nodup := by
    intro l
    induction l with
    | nil => intro g hg; exact hg
    | cons r rs ih => intro g hg; exact ih (addRow g r) (nodup_map_fst_addRow r hg)
  exact h stats [] (by simp)

lemma mem_map_fst_groupStats (stats : List CommitStatRecord) (a : String) :
    a ∈ (groupStats stats).map Prod.fst ↔ ∃ r ∈ stats, r.author = a := by
  have h : ∀ (l : List CommitStatRecord) (g : List (String × List (String × CommitStatRecord))),
      (a ∈ ((l.foldl addRow g).map Prod.fst) ↔
        a ∈ g.map Prod.fst ∨ ∃ r ∈ l, r.author = a) := by
    intro l
    induction l with
    | nil => intro g; simp
    | cons r rs ih =>
        intro g
        rw [show (r :: rs).foldl addRow g = rs.foldl addRow (addRow g r) from rfl, ih,
          mem_map_fst_addRow]
        constructor
        · rintro ((h | he) | ⟨x, hx, rfl⟩)
          · exact Or.inl h
          · exact Or.inr ⟨r, List.mem_cons_self r rs, he.symm⟩
          · exact Or.inr ⟨x, List.mem_cons_of_mem r hx, rfl⟩
        · rintro (h | ⟨x, hx, rfl⟩)
          · exact Or.inl (Or.inl h)
          · rcases List.mem_cons.mp hx with rfl | hx2
            · exact Or.inl (Or.inr rfl)
            · exact Or.inr ⟨x, hx2, rfl⟩
  unfold groupStats
  rw [h stats []]
  simp

lemma lookup_eq_some_of_mem {β : Type} :
    ∀ (g : List (String × β)), (g.map Prod.fst).Nodup →
      ∀ {a : String} {m : β}, (a, m) ∈ g → g.lookup a = some m := by
  intro g
  induction g with
  | nil => intro _ a m hm; cases hm
  | cons p rest ih =>
      intro hnd a m hm
      obtain ⟨k, v⟩ := p
      rcases List.mem_cons.mp hm with heq | hmem
      · obtain ⟨rfl, rfl⟩ := Prod.mk.injEq .. ▸ heq
        exact List.lookup_cons_self
      · have hk : ¬ a = k := by
          intro he
          have h1 : k ∉ rest.map Prod.fst :=
            (List.nodup_cons.mp (by simpa using hnd)).1
          exact h1 (he ▸ List.mem_map_of_mem Prod.fst hmem)
        rw [lookup_cons_of_ne _ _ hk]
        exact ih (List.nodup_cons.mp (by simpa using hnd)).2 hmem

lemma findLast_eq_some {l : List CommitStatRecord} {a w : String} {x : CommitStatRecord} :
    findLast l a w = some x → x ∈ l ∧ a = x.author ∧ w = x.week := by
  induction l with
  | nil => intro h; cases h
  | cons r rs ih =>
      intro h
      cases hf : findLast rs a w with
      | some y =>
          simp only [findLast, hf] at h
          obtain rfl := Option.some.injEq .. ▸ h
          exact ⟨List.mem_cons_of_mem r (ih hf).1, (ih hf).2.1, (ih hf).2.2⟩
      | none =>
          simp only [findLast, hf] at h
          by_cases hc : a = r.author ∧ w = r.week
          · rw [if_pos hc] at h
            obtain rfl := Option.some.injEq .. ▸ h
            exact ⟨List.mem_cons_self _ _, hc.1, hc.2⟩
          · rw [if_neg hc] at h
            cases h

lemma findLast_eq_none_iff {l : List CommitStatRecord} {a w : String} :
    findLast l a w = none ↔ ∀ r ∈ l, ¬(a = r.author ∧ w = r.week) := by
  induction l with
  | nil => simp [findLast]
  | cons r rs ih =>
      constructor
      · intro h r' hr'
        cases hf : findLast rs a w with
        | some x => simp [findLast, hf] at h
        | none =>
            have hcond : ¬(a = r.author ∧ w = r.week) := by
              rintro ⟨ha, hw⟩
              subst ha
              subst hw
              simp [findLast, hf] at h
            rcases List.mem_cons.mp hr' with rfl | h2
            · exact hcond
            · exact (ih.mp hf) r' h2
      · intro h
        have hf : findLast rs a w = none :=
          ih.mpr fun r' hr' => h r' (List.mem_cons_of_mem r hr')
        have hcond : ¬(a = r.author ∧ w = r.week) := h r (List.mem_cons_self r rs)
        simp [findLast, hf, hcond]

lemma findLast_of_uniq :
    ∀ {l : List CommitStatRecord},
      ((l.map fun r => (r.author, r.week)).Nodup) →
      ∀ {r : CommitStatRecord}, r ∈ l → findLast l r.author r.week = some r := by
  intro l
  induction l with
  | nil => intro _ r hr; cases hr
  | cons x xs ih =>
      intro hnd r hr
      have hcons : ((x.author, x.week) :: (xs.map fun r => (r.author, r.week))).Nodup := by
        rw [List.map_cons] at hnd
        exact hnd
      have hnd2 : ((xs.map fun r => (r.author, r.week)).Nodup) :=
        (List.nodup_cons.mp hcons).2
      have hhead : (x.author, x.week) ∉ xs.map fun r => (r.author, r.week) :=
        (List.nodup_cons.mp hcons).1
      rcases List.mem_cons.mp hr with rfl | hmem
      · have hf : findLast xs r.author r.week = none := by
          rw [findLast_eq_none_iff]
          intro y hy hc
          apply hhead
          have h1 : (y.author, y.week) ∈ xs.map fun r => (r.author, r.week) :=
            List.mem_map_of_mem _ hy
          rwa [← hc.1, ← hc.2] at h1
        simp [findLast, hf]
      · have hf := ih hnd2 hmem
        simp [findLast, hf]

lemma findLast_eq_filter_getLast (l : List CommitStatRecord) (a w : String) :
    findLast l a w = (l.filter (fun r => r.author == a && r.week == w)).getLast? := by
  induction l with
  | nil => rfl
  | cons x xs ih =>
      by_cases hx : a = x.author ∧ w = x.week
      · obtain ⟨ha, hw⟩ := hx
        subst ha
        subst hw
        have hpx : (x.author == x.author && x.week == x.week) = true := by simp
        have hfc : List.filter (fun r => r.author == x.author && r.week == x.week) (x :: xs)
            = x :: List.filter (fun r => r.author == x.author && r.week == x.week) xs :=
          List.filter_cons_of_pos hpx
        rw [hfc]
        cases hf : findLast xs x.author x.week with
        | some y =>
            have h2 : (xs.filter
                (fun r => r.author == x.author && r.week == x.week)).getLast? = some y := by
              rw [← ih, hf]
            cases hft : xs.filter (fun r => r.author == x.author && r.week == x.week) with
            | nil => rw [hft] at h2; cases h2
            | cons z zs =>
                rw [hft] at h2
                rw [List.getLast?_cons_cons, h2]
                simp [findLast, hf]
        | none =>
            have h2 : xs.filter (fun r => r.author == x.author && r.week == x.week) = [] := by
              have h3 := ih
              rw [hf] at h3
              exact List.getLast?_eq_none_iff.mp h3.symm
            rw [h2]
            simp [findLast, hf]
      · have hpx : ¬ ((x.author == a && x.week == w) = true) := by
          simp only [Bool.and_eq_true, beq_iff_eq]
          exact fun hc => hx ⟨hc.1.symm, hc.2.symm⟩
        have hfc : List.filter (fun r => r.author == a && r.week == w) (x :: xs)
            = List.filter (fun r => r.author == a && r.week == w) xs :=
          List.filter_cons_of_neg hpx
        rw [hfc, ← ih]
        cases hf : findLast xs a w <;> simp [findLast, hf, hx]

lemma map_fst_map_pair {α β γ : Type} (l : List (α × β)) (f : α × β → γ) :
    ((l.map (fun g => (g.1, f g))).map Prod.fst) = l.map Prod.fst := by
  rw [List.map_map]
  apply List.map_congr_left
  intro g _
  rfl

lemma series_of_mem_datasets {stats : List CommitStatRecord} {p : String × List Nat}
    (hp : p ∈ (renderCommitChartData stats).2) :
    p.2 = (renderCommitChartData stats).1.map (fun w =>
      match findLast stats p.1 w with
      | some r => r.commits
      | none => 0) := by
  have hD : (renderCommitChartData stats).2
      = (groupStats stats).map
          (fun g => (g.1, weekSeries g.2 (renderCommitChartData stats).1)) := rfl
  rw [hD] at hp
  obtain ⟨g, hg, hpe⟩ := List.mem_map.mp hp
  subst hpe
  show weekSeries g.2 (renderCommitChartData stats).1 = _
  have hsome : (groupStats stats).lookup g.1 = some g.2 :=
    lookup_eq_some_of_mem _ (nodup_map_fst_groupStats stats)
      (show (g.1, g.2) ∈ groupStats stats from hg)
  have hlook : ∀ w, g.2.lookup w = findLast stats g.1 w := by
    intro w
    have h2 : lookupWeek (groupStats stats) g.1 w = g.2.lookup w := by
      unfold lookupWeek
      rw [hsome]
    rw [← h2, lookupWeek_groupStats]
  unfold weekSeries
  apply List.map_congr_left
  intro w _
  show (match g.2.lookup w with | some r => r.commits | none => 0)
    = match findLast stats g.1 w with | some r => r.commits | none => 0
  rw [hlook w]

/-- C2: the grouping stage of `renderCommitChart` produces the distinct week
keys of the input sorted ascending (in JavaScript's default string order),
and one dataset per distinct author, aligned to that week list, whose entry
for each week is that author's commit count for the week, with `0`
substituted for every (author, week) pair absent from the input.  (The input
is assumed to carry at most one record per (author, week) pair, which is
what the backend's aggregation produces; claim C10 covers duplicate
pairs.) -/
theorem renderCommitChart_bucketize_spec (stats : List CommitStatRecord)
    (huniq : (stats.map fun r => (r.author, r.week)).Nodup) :
    (renderCommitChartData stats).1.Sorted (fun a b => jsLe a b = true) ∧
    (renderCommitChartData stats).1.Nodup ∧
    (∀ w, w ∈ (renderCommitChartData stats).1 ↔ ∃ r ∈ stats, r.week = w) ∧
    ((renderCommitChartData stats).2.map Prod.fst).Nodup ∧
    (∀ a, a ∈ (renderCommitChartData stats).2.map Prod.fst ↔ ∃ r ∈ stats, r.author = a) ∧
    (∀ p ∈ (renderCommitChartData stats).2,
      p.2.length = (renderCommitChartData stats).1.length ∧
      ∀ i (hi : i < (renderCommitChartData stats).1.length) (hi2 : i < p.2.length),
        (∀ r ∈ stats, r.author = p.1 →
          r.week = (renderCommitChartData stats).1.get ⟨i, hi⟩ →
          p.2.get ⟨i, hi2⟩ = r.commits) ∧
        ((¬ ∃ r ∈ stats, r.author = p.1 ∧
            r.week = (renderCommitChartData stats).1.get ⟨i, hi⟩) →
          p.2.get ⟨i, hi2⟩ = 0)) := by
  have hW : (renderCommitChartData stats).1
      = List.insertionSort (fun a b => jsLe a b = true)
          ((stats.map CommitStatRecord.week).dedup) := rfl
  have hD : (renderCommitChartData stats).2
      = (groupStats stats).map
          (fun g => (g.1, weekSeries g.2 (renderCommitChartData stats).1)) := rfl
  refine ⟨?_, ?_, ?_, ?_, ?_, ?_⟩
  · rw [hW]
    exact List.sorted_insertionSort _ _
  · rw [hW]
    exact (List.perm_insertionSort _ _).symm.nodup (List.nodup_dedup _)
  · intro w
    rw [hW, List.mem_insertionSort, List.mem_dedup, List.mem_map]
  · rw [hD, map_fst_map_pair]
    exact nodup_map_fst_groupStats stats
  · intro a
    rw [hD, map_fst_map_pair]
    exact mem_map_fst_groupStats stats a
  · intro p hp
    have hser := series_of_mem_datasets hp
    refine ⟨by rw [hser, List.length_map], ?_⟩
    intro i hi hi2
    have hentry : p.2.get ⟨i, hi2⟩ =
        match findLast stats p.1 ((renderCommitChartData stats).1.get ⟨i, hi⟩) with
        | some r => r.commits
        | none => 0 := by
      rw [List.get_of_eq hser ⟨i, hi2⟩]
      simp [List.get_eq_getElem, List.getElem_map]
    constructor
    · intro r hr ha hw
      have hfl : findLast stats p.1 ((renderCommitChartData stats).1.get ⟨i, hi⟩)
          = some r := by
        rw [← ha, ← hw]
        exact findLast_of_uniq huniq hr
      rw [hentry, hfl]
    · intro hnone
      have hfl : findLast stats p.1 ((renderCommitChartData stats).1.get ⟨i, hi⟩)
          = none := by
        rw [findLast_eq_none_iff]
        intro r hr hc
        exact hnone ⟨r, hr, hc.1.symm, hc.2.symm⟩
      rw [hentry, hfl]

/-- C2 witness: the zero-fill instance of spec §8 — records
`[("alice","W1",3), ("bob","W2",5)]` give the sorted distinct week list and
the week-membership property at that concrete input. -/
theorem renderCommitChart_bucketize_spec_witness :
    ((([⟨"alice", "W1", 3⟩, ⟨"bob", "W2", 5⟩] : List CommitStatRecord).map
        fun r => (r.author, r.week)).Nodup) ∧
    (renderCommitChartData [⟨"alice", "W1", 3⟩, ⟨"bob", "W2", 5⟩]).1.Sorted
        (fun a b => jsLe a b = true) ∧
    (∀ w, w ∈ (renderCommitChartData [⟨"alice", "W1", 3⟩, ⟨"bob", "W2", 5⟩]).1 ↔
      ∃ r ∈ ([⟨"alice", "W1", 3⟩, ⟨"bob", "W2", 5⟩] : List CommitStatRecord), r.week = w) :=
  ⟨by decide,
    (renderCommitChart_bucketize_spec _ (by decide)).1,
    (renderCommitChart_bucketize_spec _ (by decide)).2.2.1⟩

/-- C10: when the input carries several records with the same (author, week)
pair, the aligned series entry for that pair is the `commits` value of the
last such record in input order — later duplicates overwrite earlier ones
and counts are never summed: every dataset row equals, week by week, the
commit count of the last matching record (`0` when there is none). -/
theorem renderCommitChart_duplicate_lastWins (stats : List CommitStatRecord)
    {p : String × List Nat} (hp : p ∈ (renderCommitChartData stats).2) :
    p.2 = (renderCommitChartData stats).1.map (fun w =>
      (((stats.filter (fun r => r.author == p.1 && r.week == w)).getLast?).map
        CommitStatRecord.commits).getD 0) := by
  rw [series_of_mem_datasets hp]
  apply List.map_congr_left
  intro w _
  show (match findLast stats p.1 w with | some r => r.commits | none => 0) = _
  rw [findLast_eq_filter_getLast]
  cases hf : (stats.filter (fun r => r.author == p.1 && r.week == w)).getLast? <;>
    simp [hf]

/-- C10 witness: two records for the pair `("a","W")` with counts `2` then
`3` produce the series `[3]` — the last record wins and nothing is
summed. -/
theorem renderCommitChart_duplicate_lastWins_witness :
    (("a", [3]) : String × List Nat) ∈
      (renderCommitChartData [⟨"a", "W", 2⟩, ⟨"a", "W", 3⟩]).2 ∧
    (("a", [3]) : String × List Nat).2 =
      (renderCommitChartData [⟨"a", "W", 2⟩, ⟨"a", "W", 3⟩]).1.map (fun w =>
        ((([⟨"a", "W", 2⟩, ⟨"a", "W", 3⟩] : List CommitStatRecord).filter
          (fun r => r.author == (("a", [3]) : String × List Nat).1 && r.week == w)).getLast?.map
            CommitStatRecord.commits).getD 0) :=
  ⟨by decide, renderCommitChart_duplicate_lastWins _ (by decide)⟩

/-- C8 witness: the amended empty-project-id behaviour at concrete boundary
outcomes. -/
theorem emptyProjectIds_input_error_witness :
    syncRepos [] true = [Effect.toast "프로젝트 ID를 입력하세요"] ∧
    fetchIssues (sampleState none []) [] none =
      (sampleState none [], [Effect.toast "프로젝트 ID를 입력하세요"]) ∧
    refreshIssues (sampleState none []) [] none =
      (sampleState none [], [Effect.toast "프로젝트 ID를 입력하세요"]) ∧
    loadCommitStats [] none = ([], none) ∧
    (∀ e, Effect.request e ∉ syncRepos [] true) ∧
    (∀ e, Effect.request e ∉ (fetchIssues (sampleState none []) [] none).2) ∧
    (∀ e, Effect.request e ∉ (refreshIssues (sampleState none []) [] none).2) ∧
    (∀ e, Effect.request e ∉ (loadCommitStats [] none).1) :=
  emptyProjectIds_input_error (sampleState none []) true none none
